/-
Verification of the hybrid-rag-parser retrieval core.

Shallow embedding of the Python sources:
  - src/ingestion/ingest.py   (DocumentProcessor._is_table_like_text)
  - src/query/query.py        (QueryEngine: html_table_to_markdown,
                               format_text_context, format_table_context,
                               search_tables, ask retrieval logic)
  - run_pipeline.py           (extract_table_text_for_vectorization)
  - src/api/cache.py          (InMemoryCache, QueryCache)
  - src/api/optimization.py   (QueryOptimizer.deduplicate_results)

Modelling conventions:
  - Python strings are `List Char` (wrapped in `String` at the interfaces).
  - The regex character class `\d` is modelled on its ASCII extent
    (`Char.isDigit`); `\s`, `str.split()`, `str.strip()` use the standard
    Python whitespace set.
  - Regex scanning (`re.findall`, `re.sub`, `re.match`) is modelled by
    direct deterministic scanners, since every pattern used by the code
    is deterministic (greedy runs up to a fixed delimiter, or lazy runs
    up to a fixed literal).  Scanners take an explicit fuel argument
    (always instantiated with the input length) so that they are
    structurally recursive and evaluate inside the kernel.
  - `time.time()` is an explicit clock argument; the MD5 hash used for
    cache keys is an abstract function argument (the claims proved about
    it hold for every such function).
-/
import Mathlib

set_option linter.unusedVariables false

namespace HybridRag

/-! ### Python character classes and basic string operations -/

/-- Python whitespace (the set accepted by `str.isspace`, `str.strip()`,
`str.split()` and the regex class `\s`). -/
def pyWs (c : Char) : Bool :=
  (0x09 ≤ c.toNat && c.toNat ≤ 0x0d) || c.toNat = 0x20 ||
  (0x1c ≤ c.toNat && c.toNat ≤ 0x1f) || c.toNat = 0x85 || c.toNat = 0xa0 ||
  c.toNat = 0x1680 || (0x2000 ≤ c.toNat && c.toNat ≤ 0x200a) ||
  c.toNat = 0x2028 || c.toNat = 0x2029 || c.toNat = 0x202f ||
  c.toNat = 0x205f || c.toNat = 0x3000

/-- The regex class `\d`, modelled on its ASCII extent. -/
def isDigitCh (c : Char) : Bool := c.isDigit

/-- Python `str.strip()`: drop leading and trailing whitespace. -/
def pyStrip (l : List Char) : List Char :=
  ((l.dropWhile pyWs).reverse.dropWhile pyWs).reverse

/-- `listStartsWith pat l` is Python `l.startswith(pat)`. -/
def listStartsWith : List Char → List Char → Bool
  | [], _ => true
  | _ :: _, [] => false
  | p :: ps, c :: cs => p = c && listStartsWith ps cs

/-- One step list of `str.split()`: fueled worker. -/
def pySplitGo : Nat → List Char → List (List Char)
  | 0, _ => []
  | fuel + 1, l =>
    let l' := l.dropWhile pyWs
    match l' with
    | [] => []
    | _ :: _ =>
      l'.takeWhile (fun c => !pyWs c) ::
        pySplitGo fuel (l'.dropWhile (fun c => !pyWs c))

/-- Python `str.split()` (no arguments): split on whitespace runs,
discarding empty tokens. -/
def pySplit (l : List Char) : List (List Char) := pySplitGo l.length l

/-- `sep.join(parts)` for character lists. -/
def joinSep (sep : List Char) : List (List Char) → List Char
  | [] => []
  | [x] => x
  | x :: y :: rest => x ++ sep ++ joinSep sep (y :: rest)

/-! ### Regex scanners used by `_is_table_like_text` (ingest.py) -/

/-- Does the list start with a full ISO-date match `\d{4}-\d{2}-\d{2}`? -/
def matchDateAt : List Char → Bool
  | a :: b :: c :: d :: '-' :: e :: f :: '-' :: g :: h :: _ =>
    isDigitCh a && isDigitCh b && isDigitCh c && isDigitCh d &&
    isDigitCh e && isDigitCh f && isDigitCh g && isDigitCh h
  | _ => false

/-- Fueled scanner for `len(re.findall(r'\d{4}-\d{2}-\d{2}', text))`:
left-to-right, non-overlapping. -/
def countDatesGo : Nat → List Char → Nat
  | 0, _ => 0
  | _, [] => 0
  | fuel + 1, c :: rest =>
    if matchDateAt (c :: rest) then 1 + countDatesGo fuel (rest.drop 9)
    else countDatesGo fuel rest

/-- `len(re.findall(r'\d{4}-\d{2}-\d{2}', text))`. -/
def countDates (l : List Char) : Nat := countDatesGo l.length l

/-- Characters of the regex class `[\d,]`. -/
def isDigComma (c : Char) : Bool := isDigitCh c || c = ','

/-- After the mandatory `\$[\d,]+` part of the source's currency
pattern has fired, consume the rest of the match `\.?\d*`: `rest` is the
input just after the `$`. -/
def currencyRestCode (rest : List Char) : List Char :=
  match rest.dropWhile isDigComma with
  | '.' :: r => r.dropWhile isDigitCh
  | r1 => r1

/-- Same for the pattern written in the specification, whose optional
part is `(\.\d+)?` (a dot only consumed together with at least one
digit). -/
def currencyRestSpec (rest : List Char) : List Char :=
  match rest.dropWhile isDigComma with
  | '.' :: d :: r =>
    if isDigitCh d then (d :: r).dropWhile isDigitCh
    else '.' :: d :: r
  | r1 => r1

/-- Fueled scanner counting non-overlapping matches of a currency
pattern `\$[\d,]+⟨tail⟩`, where `restF` consumes the pattern's optional
tail. -/
def countCurrencyGo (restF : List Char → List Char) :
    Nat → List Char → Nat
  | 0, _ => 0
  | _, [] => 0
  | fuel + 1, c :: rest =>
    if c = '$' && isDigComma (rest.headD ' ') then
      1 + countCurrencyGo restF fuel (restF rest)
    else countCurrencyGo restF fuel rest

/-- `len(re.findall(r'\$[\d,]+\.?\d*', text))` (the source's pattern). -/
def countCurrencyCode (l : List Char) : Nat :=
  countCurrencyGo currencyRestCode l.length l

/-- `len(re.findall(r'\$[\d,]+(\.\d+)?', text))` (the specification's
pattern). -/
def countCurrencySpec (l : List Char) : Nat :=
  countCurrencyGo currencyRestSpec l.length l

/-- Common value of both currency counts: the number of positions holding
a literal dollar sign immediately followed by a digit or comma. -/
def dollarPairs : List Char → Nat
  | [] => 0
  | [_] => 0
  | a :: b :: rest =>
    (if a = '$' && isDigComma b then 1 else 0) + dollarPairs (b :: rest)

/-- Characters of the regex class `[\d$,.-]`. -/
def isNumClassChar (c : Char) : Bool :=
  isDigitCh c || c = '$' || c = ',' || c = '.' || c = '-'

/-- `bool(re.match(r'[\d$,.-]+', w))`: `re.match` anchors at the start
only, so this holds iff the first character is in the class. -/
def isNumTok (w : List Char) : Bool :=
  match w with
  | [] => false
  | c :: _ => isNumClassChar c

/-- Full-match version: the whole token lies in `[\d$,.-]+`. -/
def isNumTokFull (w : List Char) : Bool :=
  !w.isEmpty && w.all isNumClassChar

/-- Number of adjacent positions whose classifications differ. -/
def countTransitions : List Bool → Nat
  | a :: b :: rest => (if a = b then 0 else 1) + countTransitions (b :: rest)
  | _ => 0

/-! ### `DocumentProcessor._is_table_like_text` (ingest.py) -/

/-- The `table_indicators` list of the source. -/
def tableIndicators : List (List Char) :=
  ["Table data:".data, "table data:".data, "| ".data, "<table".data]

/-- `DocumentProcessor._is_table_like_text(text_content, element)`.
The `element` parameter is accepted (as in the source signature) but the
body never reads it. -/
def is_table_like_text (text_content : List Char) (element : α) : Bool :=
  -- Check 1: common table indicators
  if tableIndicators.any (fun ind => listStartsWith ind text_content) then true
  -- Check 2: three or more ISO date patterns
  else if 3 ≤ countDates text_content then true
  -- Check 3: high density of tab characters
  else if 3 ≤ text_content.count '\t' then true
  -- Check 4: alternating word/number pattern over at least 8 tokens
  else if 8 ≤ (pySplit text_content).length &&
          6 ≤ countTransitions ((pySplit text_content).map isNumTok) then true
  -- Check 5: three or more currency amounts
  else if 3 ≤ countCurrencyCode text_content then true
  else false

/-- The five clauses exactly as the claim words them, with clause (4)
classifying a token as numeric-like only when the whole token matches
`[\d$,.-]+`. -/
def specTableLikeClaim (text : List Char) : Bool :=
  tableIndicators.any (fun ind => listStartsWith ind text) ||
  decide (3 ≤ countDates text) ||
  decide (3 ≤ text.count '\t') ||
  (8 ≤ (pySplit text).length &&
    6 ≤ countTransitions ((pySplit text).map isNumTokFull)) ||
  decide (3 ≤ countCurrencySpec text)

/-- The claim's five clauses with clause (4) amended to Python `re.match`
semantics: a token is numeric-like iff it has a non-empty prefix in
`[\d$,.-]+`, i.e. iff its first character is in the class. -/
def specTableLikeAmended (text : List Char) : Bool :=
  tableIndicators.any (fun ind => listStartsWith ind text) ||
  decide (3 ≤ countDates text) ||
  decide (3 ≤ text.count '\t') ||
  (8 ≤ (pySplit text).length &&
    6 ≤ countTransitions ((pySplit text).map isNumTok)) ||
  decide (3 ≤ countCurrencySpec text)

/-! ### Regex scanners used by `QueryEngine.html_table_to_markdown`
(query.py) and `extract_table_text_for_vectorization` (run_pipeline.py) -/

/-- Fueled worker for `re.sub(r'\s+', ' ', l)`: every maximal whitespace
run becomes a single space. -/
def subWsRunsGo : Nat → List Char → List Char
  | 0, _ => []
  | _, [] => []
  | fuel + 1, c :: rest =>
    if pyWs c then ' ' :: subWsRunsGo fuel (rest.dropWhile pyWs)
    else c :: subWsRunsGo fuel rest

/-- `re.sub(r'\s+', ' ', l)`. -/
def subWsRuns (l : List Char) : List Char := subWsRunsGo l.length l

/-- `re.sub(r'\s+', ' ', l.strip())` as performed at the top of
`html_table_to_markdown`. -/
def collapseWs (l : List Char) : List Char := subWsRuns (pyStrip l)

/-- The `r` of `<tr`, case-insensitively. -/
def isTrSecond (c : Char) : Bool := c = 'r' || c = 'R'

/-- The `[hd]` of `<t[hd]`, case-insensitively. -/
def isCellSecond (c : Char) : Bool :=
  c = 'h' || c = 'H' || c = 'd' || c = 'D'

/-- Match `<tX[^>]*>` (case-insensitive, `X` accepted by `isSecond`) at
the head; on success return the remainder after the closing `>`. -/
def matchOpenTag (isSecond : Char → Bool) (l : List Char) :
    Option (List Char) :=
  match l with
  | c1 :: c2 :: c3 :: rest =>
    if c1 = '<' && (c2 = 't' || c2 = 'T') && isSecond c3 then
      if (rest.dropWhile (fun c => !(c = '>'))).headD ' ' = '>' then
        some (rest.dropWhile (fun c => !(c = '>'))).tail
      else none
    else none
  | _ => none

/-- Match `<tr[^>]*>` at the head. -/
def matchOpenTr : List Char → Option (List Char) := matchOpenTag isTrSecond

/-- Match `<t[hd][^>]*>` at the head. -/
def matchOpenCell : List Char → Option (List Char) :=
  matchOpenTag isCellSecond

/-- Does the list begin with `</tX>` (case-insensitive, `X` accepted by
`isSecond`)? -/
def isCloseTagAt (isSecond : Char → Bool) (l : List Char) : Bool :=
  match l with
  | c1 :: c2 :: c3 :: c4 :: c5 :: _ =>
    c1 = '<' && c2 = '/' && (c3 = 't' || c3 = 'T') && isSecond c4 &&
      c5 = '>'
  | _ => false

/-- Split at the first occurrence of a 5-character closing tag accepted
by `isSecond`: the content before it and the remainder after it.  This
is the lazy `(.*?)</tX>` part of the row/cell patterns. -/
def closeTagSplit (isSecond : Char → Bool) :
    List Char → Option (List Char × List Char)
  | [] => none
  | c :: rest =>
    if isCloseTagAt isSecond (c :: rest) then some ([], (c :: rest).drop 5)
    else (closeTagSplit isSecond rest).map (fun p => (c :: p.1, p.2))

/-- Split at the first `</tr>` (case-insensitive). -/
def closeTrSplit : List Char → Option (List Char × List Char) :=
  closeTagSplit isTrSecond

/-- Split at the first `</th>` or `</td>` (case-insensitive). -/
def closeCellSplit : List Char → Option (List Char × List Char) :=
  closeTagSplit isCellSecond

/-- Fueled scanner for `re.findall(r'<tX[^>]*>(.*?)</tX>', l,
re.IGNORECASE | re.DOTALL)`: leftmost match, deterministic open tag,
lazy capture up to the first closing tag, continue after the match. -/
def findTagGo (isSecond : Char → Bool) : Nat → List Char → List (List Char)
  | 0, _ => []
  | _, [] => []
  | fuel + 1, c :: rest =>
    match matchOpenTag isSecond (c :: rest) with
    | some afterOpen =>
      match closeTagSplit isSecond afterOpen with
      | some (cont, after) => cont :: findTagGo isSecond fuel after
      | none => findTagGo isSecond fuel rest
    | none => findTagGo isSecond fuel rest

/-- `re.findall(r'<tr[^>]*>(.*?)</tr>', l, re.IGNORECASE | re.DOTALL)`. -/
def findTrRows (l : List Char) : List (List Char) :=
  findTagGo isTrSecond l.length l

/-- `re.findall(r'<t[hd][^>]*>(.*?)</t[hd]>', row, re.IGNORECASE |
re.DOTALL)`. -/
def findCells (l : List Char) : List (List Char) :=
  findTagGo isCellSecond l.length l

/-- Fueled worker for `re.sub(r'<[^>]+>', '', l)`: drop every maximal
`<`…`>` group holding at least one non-`>` character. -/
def stripTagsGo : Nat → List Char → List Char
  | 0, _ => []
  | _, [] => []
  | fuel + 1, c :: rest =>
    if c = '<' then
      if rest.headD '>' = '>' then c :: stripTagsGo fuel rest
      else if (rest.dropWhile (fun d => !(d = '>'))).headD ' ' = '>' then
        stripTagsGo fuel (rest.dropWhile (fun d => !(d = '>'))).tail
      else c :: stripTagsGo fuel rest
    else c :: stripTagsGo fuel rest

/-- `re.sub(r'<[^>]+>', '', l)`. -/
def stripTags (l : List Char) : List Char := stripTagsGo l.length l

/-- Fueled worker for `re.sub(r'<[^>]+>', ' ', l)`: like `stripTags`
but every dropped tag leaves a single space behind. -/
def replaceTagsGo : Nat → List Char → List Char
  | 0, _ => []
  | _, [] => []
  | fuel + 1, c :: rest =>
    if c = '<' then
      if rest.headD '>' = '>' then c :: replaceTagsGo fuel rest
      else if (rest.dropWhile (fun d => !(d = '>'))).headD ' ' = '>' then
        ' ' :: replaceTagsGo fuel (rest.dropWhile (fun d => !(d = '>'))).tail
      else c :: replaceTagsGo fuel rest
    else c :: replaceTagsGo fuel rest

/-- `re.sub(r'<[^>]+>', ' ', l)`. -/
def replaceTags (l : List Char) : List Char := replaceTagsGo l.length l

/-! ### `QueryEngine.html_table_to_markdown` (query.py) -/

/-- The cells of one row: extract, strip residual markup, trim. -/
def cellsOfRow (row : List Char) : List (List Char) :=
  (findCells row).map fun c => pyStrip (stripTags c)

/-- `'| ' + ' | '.join(cells) + ' |'`. -/
def mkMdLine (cells : List (List Char)) : List Char :=
  "| ".data ++ joinSep " | ".data cells ++ " |".data

/-- The `markdown_lines` list built by the row loop: one pipe line per
row, with the `---` separator inserted after the first row. -/
def mdLines (rows : List (List Char)) : List (List Char) :=
  match rows with
  | [] => []
  | r0 :: rest =>
    mkMdLine (cellsOfRow r0) ::
      mkMdLine (List.replicate (cellsOfRow r0).length "---".data) ::
        rest.map (fun r => mkMdLine (cellsOfRow r))

/-- `QueryEngine.html_table_to_markdown(html_content)`. -/
def html_table_to_markdown (html_content : String) : String :=
  if (findTrRows (collapseWs html_content.data)).isEmpty then
    String.mk (collapseWs html_content.data)
  else
    String.mk
      (joinSep ['\n'] (mdLines (findTrRows (collapseWs html_content.data))))

/-! ### Context formatting (query.py) -/

/-- A Qdrant payload as consumed by `format_text_context` and `ask`:
`none` in a field models a payload lacking that key. -/
structure ChunkPayload where
  text : Option String
  source_filename : Option String
deriving DecidableEq, Repr

/-- A MongoDB table document as consumed by `format_table_context`:
`none` in a field models a document lacking that key. -/
structure TablePayload where
  content : Option String
  content_type : Option String
  source_filename : Option String
  table_id : Option String
deriving DecidableEq, Repr

/-- Pair each element with its 1-based position (Python
`enumerate(xs, 1)`). -/
def enumFromN : Nat → List α → List (Nat × α)
  | _, [] => []
  | n, x :: xs => (n, x) :: enumFromN (n + 1) xs

/-- Is `pat` a contiguous sublist (Python `pat in l`)? -/
def hasInfix (pat : List Char) : List Char → Bool
  | [] => listStartsWith pat []
  | c :: rest => listStartsWith pat (c :: rest) || hasInfix pat rest

/-- `QueryEngine.format_text_context(vector_context)`. -/
def format_text_context (vector_context : List ChunkPayload) : String :=
  if vector_context.isEmpty then "No relevant text chunks found."
  else
    String.mk (joinSep "\n\n".data ((enumFromN 1 vector_context).map fun p =>
      "[Chunk ".data ++ (toString p.1).data ++ " from ".data ++
        (p.2.source_filename.getD "unknown").data ++ "]".data ++ ['\n'] ++
        (p.2.text.getD "").data))

/-- `QueryEngine.format_table_context(table_context)`. -/
def format_table_context (table_context : List TablePayload) : String :=
  if table_context.isEmpty then "No relevant tables found."
  else
    String.mk (joinSep "\n\n".data ((enumFromN 1 table_context).map fun p =>
      let content := p.2.content.getD ""
      let content_type := p.2.content_type.getD "unknown"
      let source := p.2.source_filename.getD "unknown"
      let table_id := p.2.table_id.getD ("table_" ++ toString p.1)
      let content' :=
        if content_type = "html" &&
            hasInfix "<table".data (content.data.map Char.toLower) then
          html_table_to_markdown content
        else content
      "[Table ".data ++ (toString p.1).data ++ " - ".data ++ table_id.data ++
        " from ".data ++ source.data ++ "]".data ++ ['\n'] ++ content'.data))

/-! ### Smart retrieval (query.py: `search_tables` and the retrieval
steps 1-3 of `ask`) -/

/-- A stored MongoDB table record; `insert_tables` (db_connectors.py)
always attaches a `source_filename` string. -/
structure TableDoc where
  content : String
  source_filename : String
deriving DecidableEq, Repr

/-- `QueryEngine.search_tables(question, file_filter)` over an abstract
store (the MongoDB collection in natural order).  Python's
`if file_filter:` treats both `None` and the empty string as "no
filter"; `find(query_filter).limit(5)` keeps the first five matches. -/
def search_tables (store : List TableDoc) (file_filter : Option String) :
    List TableDoc :=
  let query_filter : Option String :=
    match file_filter with
    | some f => if f = "" then none else some f
    | none => none
  let results : List TableDoc :=
    match query_filter with
    | some f => store.filter (fun r => r.source_filename == f)
    | none => store
  results.take 5

/-- Steps 1-3 of `QueryEngine.ask`: given the vector-search results and
the table store, pick the rank-1 payload's `source_filename` (if any)
and run the scoped table search. -/
def ask_table_retrieval (vector_context : List ChunkPayload)
    (store : List TableDoc) : List TableDoc :=
  let source_file : Option String :=
    match vector_context with
    | [] => none
    | p :: _ => p.source_filename
  search_tables store source_file

/-! ### `extract_table_text_for_vectorization` (run_pipeline.py) -/

/-- A table dict as seen by the pipeline; `none` in `content` models a
missing `'content'` key or a non-string value (both skipped by the
`isinstance` guard). -/
structure PipelineTable where
  content : Option String
deriving DecidableEq, Repr

/-- The cleaning performed by the source: tags replaced by a space,
whitespace collapsed, ends trimmed. -/
def cleanedTableText (c : String) : List Char :=
  pyStrip (subWsRuns (replaceTags c.data))

/-- `extract_table_text_for_vectorization(tables)` (run_pipeline.py),
written as the source's accumulate-in-a-loop. -/
def extract_table_text_for_vectorization (tables : List PipelineTable) :
    List String :=
  tables.foldl (fun acc t =>
    match t.content with
    | none => acc
    | some c =>
      if c = "" then acc
      else
        let cleaned := cleanedTableText c
        if 10 < cleaned.length then
          acc ++ ["Table data: " ++ String.mk cleaned]
        else acc) []

/-- The cleaning as the claim words it: tags removed (not replaced by a
space), whitespace collapsed, ends trimmed. -/
def claimCleanedTableText (c : String) : List Char :=
  pyStrip (subWsRuns (stripTags c.data))

/-- The extraction exactly as the claim words it: one `Table data: `
string, in input order, per table whose claim-cleaned text is strictly
longer than 10 characters. -/
def specExtractTableTextClaim (tables : List PipelineTable) : List String :=
  tables.filterMap fun t =>
    match t.content with
    | none => none
    | some c =>
      if c = "" then none
      else
        let cleaned := claimCleanedTableText c
        if 10 < cleaned.length then
          some ("Table data: " ++ String.mk cleaned)
        else none

/-- The claim amended to the source's cleaning (tags become spaces). -/
def specExtractTableTextAmended (tables : List PipelineTable) : List String :=
  tables.filterMap fun t =>
    match t.content with
    | none => none
    | some c =>
      if c = "" then none
      else
        let cleaned := cleanedTableText c
        if 10 < cleaned.length then
          some ("Table data: " ++ String.mk cleaned)
        else none

/-! ### `InMemoryCache` (cache.py)

The Python dict is an insertion-ordered association list; `time.time()`
is an explicit integer clock passed to each operation (the two calls
inside `set` observe the same clock value). -/

/-- One stored cache entry. -/
structure CacheEntry (α : Type) where
  value : α
  created_at : Int
  expires_at : Option Int
deriving DecidableEq, Repr

/-- The `InMemoryCache` object state. -/
structure InMemoryCache (α : Type) where
  cache : List (String × CacheEntry α)
  max_entries : Nat
  hits : Nat
  misses : Nat
deriving DecidableEq, Repr

/-- `InMemoryCache(max_entries)`. -/
def InMemoryCache.empty (max_entries : Nat) : InMemoryCache α :=
  ⟨[], max_entries, 0, 0⟩

/-- Python `self.cache[key]` lookup (`None` when absent). -/
def lookupEntry (cache : List (String × CacheEntry α)) (key : String) :
    Option (CacheEntry α) :=
  (cache.find? (fun p => p.1 == key)).map (·.2)

/-- Python `del self.cache[key]`. -/
def eraseKey (cache : List (String × CacheEntry α)) (key : String) :
    List (String × CacheEntry α) :=
  cache.filter (fun p => !(p.1 == key))

/-- Python `self.cache[key] = entry`: overwrite in place when the key
exists, else append (dict insertion order). -/
def insertEntry (cache : List (String × CacheEntry α)) (key : String)
    (e : CacheEntry α) : List (String × CacheEntry α) :=
  if cache.any (fun p => p.1 == key) then
    cache.map (fun p => if p.1 == key then (key, e) else p)
  else cache ++ [(key, e)]

/-- The truthiness-guarded expiry test of `InMemoryCache.get`:
`entry["expires_at"] and entry["expires_at"] < time.time()` (a `None`
or zero `expires_at` is falsy, hence never expires). -/
def entryExpired (e : CacheEntry α) (now : Int) : Bool :=
  match e.expires_at with
  | none => false
  | some x => if x = 0 then false else decide (x < now)

/-- `InMemoryCache.get(key)`: returns the value (or `None`) and the
updated object state; an expired entry is deleted and counted a miss. -/
def InMemoryCache.get (st : InMemoryCache α) (key : String) (now : Int) :
    Option α × InMemoryCache α :=
  match lookupEntry st.cache key with
  | none => (none, { st with misses := st.misses + 1 })
  | some e =>
    if entryExpired e now then
      (none, { st with cache := eraseKey st.cache key,
                       misses := st.misses + 1 })
    else (some e.value, { st with hits := st.hits + 1 })

/-- `min(self.cache.keys(), key=lambda k: self.cache[k]["created_at"])`
starting from a current best: Python `min` keeps the first minimum in
iteration order (strictly smaller values replace the best). -/
def oldestKeyAux (best : String × Int) :
    List (String × CacheEntry α) → String
  | [] => best.1
  | (k, e) :: rest =>
    if e.created_at < best.2 then oldestKeyAux (k, e.created_at) rest
    else oldestKeyAux best rest

/-- The oldest-created key of the cache, `none` on an empty cache (where
Python's `min` raises `ValueError`). -/
def oldestKey? : List (String × CacheEntry α) → Option String
  | [] => none
  | (k, e) :: rest => some (oldestKeyAux (k, e.created_at) rest)

/-- The entry stored by `InMemoryCache.set`: `created_at = time.time()`,
`expires_at = time.time() + ttl_seconds if ttl_seconds > 0 else None`. -/
def mkCacheEntry (value : α) (ttl_seconds now : Int) : CacheEntry α :=
  ⟨value, now, if 0 < ttl_seconds then some (now + ttl_seconds) else none⟩

/-- `InMemoryCache.set(key, value, ttl_seconds)`.  When the map is full
the oldest-created entry is evicted first; on an empty full map
(`max_entries = 0`) Python's `min([])` raises, leaving the state
unchanged — modelled by returning the state as is. -/
def InMemoryCache.set (st : InMemoryCache α) (key : String) (value : α)
    (ttl_seconds : Int) (now : Int) : InMemoryCache α :=
  if st.max_entries ≤ st.cache.length then
    match oldestKey? st.cache with
    | some oldest =>
      { st with cache :=
          (insertEntry (eraseKey st.cache oldest) key
            (mkCacheEntry value ttl_seconds now)) }
    | none => st
  else
    { st with cache :=
        (insertEntry st.cache key (mkCacheEntry value ttl_seconds now)) }

/-- `InMemoryCache.delete(key)`. -/
def InMemoryCache.del (st : InMemoryCache α) (key : String) :
    InMemoryCache α :=
  if st.cache.any (fun p => p.1 == key) then
    { st with cache := eraseKey st.cache key }
  else st

/-- `InMemoryCache.clear()`. -/
def InMemoryCache.clear (st : InMemoryCache α) : InMemoryCache α :=
  { st with cache := [], hits := 0, misses := 0 }

/-- One client-visible operation on an `InMemoryCache`, with the clock
value that `time.time()` returns during it. -/
inductive CacheOp (α : Type) where
  | get (key : String) (now : Int)
  | set (key : String) (value : α) (ttl_seconds : Int) (now : Int)
  | del (key : String)
  | clear

/-- Apply one operation to the state. -/
def applyCacheOp (st : InMemoryCache α) : CacheOp α → InMemoryCache α
  | .get key now => (st.get key now).2
  | .set key value ttl now => st.set key value ttl now
  | .del key => st.del key
  | .clear => st.clear

/-- Run a sequence of operations. -/
def runCacheOps (ops : List (CacheOp α)) (st : InMemoryCache α) :
    InMemoryCache α :=
  ops.foldl applyCacheOp st

/-! ### `QueryCache` (cache.py), over the in-memory backend -/

/-- Python `str(x)` for an optional string (`str(None) = "None"`). -/
def pyStrOpt : Option String → String
  | none => "None"
  | some s => s

/-- The pre-hash string `f"{question}:{file_filter}"`. -/
def queryKeyString (question : String) (file_filter : Option String) :
    String :=
  question ++ ":" ++ pyStrOpt file_filter

/-- `QueryCache._make_key(cache_type, value)`, with the MD5 hex digest
abstracted into an arbitrary function `h` (the claims proved below hold
for every such function). -/
def make_key (h : String → String) (cache_type value : String) : String :=
  cache_type ++ ":" ++ h value

/-- `QueryCache` state over the in-memory backend. -/
structure QueryCache (α : Type) where
  backend : InMemoryCache α
  ttl_seconds : Int
  query_hits : Nat
  query_misses : Nat
deriving DecidableEq, Repr

/-- `QueryCache.set_query_cache(question, result, file_filter)`. -/
def QueryCache.set_query_cache (qc : QueryCache α) (h : String → String)
    (question : String) (result : α) (file_filter : Option String)
    (now : Int) : QueryCache α :=
  let cache_key := make_key h "query" (queryKeyString question file_filter)
  { qc with backend := qc.backend.set cache_key result qc.ttl_seconds now }

/-- `QueryCache.get_query_cache(question, file_filter)`; `truthy` models
Python truthiness of the cached result dict (`if result:`). -/
def QueryCache.get_query_cache (qc : QueryCache α) (h : String → String)
    (truthy : α → Bool) (question : String) (file_filter : Option String)
    (now : Int) : Option α × QueryCache α :=
  let cache_key := make_key h "query" (queryKeyString question file_filter)
  let r := qc.backend.get cache_key now
  match r.1 with
  | some v =>
    if truthy v then
      (some v, { qc with backend := r.2, query_hits := qc.query_hits + 1 })
    else (none, { qc with backend := r.2,
                          query_misses := qc.query_misses + 1 })
  | none => (none, { qc with backend := r.2,
                             query_misses := qc.query_misses + 1 })

/-! ### `QueryOptimizer.deduplicate_results` (optimization.py)

A result dict is an association list of string fields; `str()` applied
to a field value that is already a string is the identity. -/

/-- `result.get(key, "")` over an association-list record. -/
def lookupField (r : List (String × String)) (key : String) : String :=
  ((r.find? (fun p => p.1 == key)).map (·.2)).getD ""

/-- `str(result.get(key, "")).strip()`. -/
def trimmedVal (r : List (String × String)) (key : String) : String :=
  String.mk (pyStrip (lookupField r key).data)

/-- The loop of `deduplicate_results`, with the `seen` set as the list
of values added so far. -/
def dedupGo (key : String) (seen : List String) :
    List (List (String × String)) → List (List (String × String))
  | [] => []
  | r :: rest =>
    let value := trimmedVal r key
    if value ≠ "" ∧ value ∉ seen then r :: dedupGo key (value :: seen) rest
    else dedupGo key seen rest

/-- `QueryOptimizer.deduplicate_results(results, key)`. -/
def deduplicate_results (results : List (List (String × String)))
    (key : String) : List (List (String × String)) :=
  dedupGo key [] results

/-- The claim's characterization, with an explicit prefix accumulator:
keep a record iff its trimmed value differs from the trimmed value of
every earlier record.  This version keeps first occurrences of the
empty trimmed value too, as the claim's wording demands. -/
def specDedupFirstOccurrence (key : String)
    (prev : List (List (String × String))) :
    List (List (String × String)) → List (List (String × String))
  | [] => []
  | r :: rest =>
    if ∀ p ∈ prev, trimmedVal p key ≠ trimmedVal r key then
      r :: specDedupFirstOccurrence key (prev ++ [r]) rest
    else specDedupFirstOccurrence key (prev ++ [r]) rest

/-- The amended characterization: additionally drop every record whose
trimmed value is empty. -/
def specDedupFirstNonEmptyOccurrence (key : String)
    (prev : List (List (String × String))) :
    List (List (String × String)) → List (List (String × String))
  | [] => []
  | r :: rest =>
    if trimmedVal r key ≠ "" ∧
        ∀ p ∈ prev, trimmedVal p key ≠ trimmedVal r key then
      r :: specDedupFirstNonEmptyOccurrence key (prev ++ [r]) rest
    else specDedupFirstNonEmptyOccurrence key (prev ++ [r]) rest

/-! ## Helper lemmas -/

theorem ne_dollar_of_isDigComma {x : Char} (h : isDigComma x = true) :
    x ≠ '$' := by
  intro hx
  subst hx
  simp [isDigComma, isDigitCh] at h

theorem ne_dollar_of_isDigitCh {x : Char} (h : isDigitCh x = true) :
    x ≠ '$' := by
  intro hx
  subst hx
  simp [isDigitCh] at h

theorem dollarPairs_append_of_no_dollar :
    ∀ a b : List Char, (∀ x ∈ a, x ≠ '$') →
      dollarPairs (a ++ b) = dollarPairs b := by
  intro a
  induction a with
  | nil => intro b _; rfl
  | cons x a ih =>
    intro b h
    have hx : x ≠ '$' := h x (List.mem_cons_self _ _)
    have ha : ∀ y ∈ a, y ≠ '$' := fun y hy => h y (List.mem_cons_of_mem _ hy)
    cases a with
    | nil =>
      cases b with
      | nil => rfl
      | cons y b' => simp [dollarPairs, hx]
    | cons z a' =>
      have hrec := ih b ha
      simpa [dollarPairs, hx] using hrec

theorem dollarPairs_cons_of_cond {c d : Char} {rest : List Char}
    (hc : c = '$') (hd : isDigComma d = true) :
    dollarPairs (c :: d :: rest) = 1 + dollarPairs (d :: rest) := by
  subst hc
  simp [dollarPairs, hd, Nat.add_comm]

theorem dollarPairs_cons_of_not_cond {c : Char} {rest : List Char}
    (h : ¬(c = '$' && isDigComma (rest.headD ' ')) = true) :
    dollarPairs (c :: rest) = dollarPairs rest := by
  cases rest with
  | nil => rfl
  | cons d rest' =>
    have h' : ¬((c = '$' && isDigComma d) = true) := by
      simpa [List.headD] using h
    simp only [dollarPairs]
    rw [if_neg h']
    simp

theorem no_dollar_mem_takeWhile_isDigComma {rest : List Char} {x : Char}
    (hx : x ∈ rest.takeWhile isDigComma) : x ≠ '$' :=
  ne_dollar_of_isDigComma (List.mem_takeWhile_imp hx)

theorem currencyRestCode_decomp (rest : List Char) :
    ∃ junk, rest = junk ++ currencyRestCode rest ∧ ∀ x ∈ junk, x ≠ '$' := by
  have hsplit :
      rest = rest.takeWhile isDigComma ++ rest.dropWhile isDigComma :=
    (List.takeWhile_append_dropWhile (p := isDigComma) (l := rest)).symm
  unfold currencyRestCode
  split
  · rename_i r heq
    refine ⟨rest.takeWhile isDigComma ++ '.' :: r.takeWhile isDigitCh,
      ?_, ?_⟩
    · rw [List.append_assoc, List.cons_append,
        List.takeWhile_append_dropWhile, ← heq]
      exact hsplit
    · intro x hx
      rcases List.mem_append.mp hx with hx | hx
      · exact no_dollar_mem_takeWhile_isDigComma hx
      · rcases List.mem_cons.mp hx with hx | hx
        · subst hx; decide
        · exact ne_dollar_of_isDigitCh (List.mem_takeWhile_imp hx)
  · rename_i r1 _
    refine ⟨rest.takeWhile isDigComma, ?_, fun x hx =>
      no_dollar_mem_takeWhile_isDigComma hx⟩
    exact hsplit

theorem currencyRestSpec_decomp (rest : List Char) :
    ∃ junk, rest = junk ++ currencyRestSpec rest ∧ ∀ x ∈ junk, x ≠ '$' := by
  have hsplit :
      rest = rest.takeWhile isDigComma ++ rest.dropWhile isDigComma :=
    (List.takeWhile_append_dropWhile (p := isDigComma) (l := rest)).symm
  unfold currencyRestSpec
  split
  · rename_i d r heq
    by_cases hd : isDigitCh d = true
    · rw [if_pos hd]
      refine ⟨rest.takeWhile isDigComma ++
        '.' :: (d :: r).takeWhile isDigitCh, ?_, ?_⟩
      · rw [List.append_assoc, List.cons_append,
          List.takeWhile_append_dropWhile, ← heq]
        exact hsplit
      · intro x hx
        rcases List.mem_append.mp hx with hx | hx
        · exact no_dollar_mem_takeWhile_isDigComma hx
        · rcases List.mem_cons.mp hx with hx | hx
          · subst hx; decide
          · exact ne_dollar_of_isDigitCh (List.mem_takeWhile_imp hx)
    · rw [if_neg hd]
      refine ⟨rest.takeWhile isDigComma, ?_, fun x hx =>
        no_dollar_mem_takeWhile_isDigComma hx⟩
      rw [← heq]
      exact hsplit
  · rename_i r1 _
    refine ⟨rest.takeWhile isDigComma, ?_, fun x hx =>
      no_dollar_mem_takeWhile_isDigComma hx⟩
    exact hsplit

theorem countCurrencyGo_eq_dollarPairs (restF : List Char → List Char)
    (hF : ∀ rest, ∃ junk, rest = junk ++ restF rest ∧ ∀ x ∈ junk, x ≠ '$') :
    ∀ fuel l, l.length ≤ fuel → countCurrencyGo restF fuel l = dollarPairs l := by
  intro fuel
  induction fuel with
  | zero =>
    intro l hl
    have : l = [] := List.eq_nil_of_length_eq_zero (Nat.le_zero.mp hl)
    subst this
    rfl
  | succ fuel ih =>
    intro l hl
    cases l with
    | nil => rfl
    | cons c rest =>
      simp only [countCurrencyGo]
      by_cases hcond : (c = '$' && isDigComma (rest.headD ' ')) = true
      · rw [if_pos hcond]
        have hcond' : c = '$' ∧ isDigComma (rest.headD ' ') = true := by
          simpa using hcond
        have hc : c = '$' := hcond'.1
        have hd := hcond'.2
        cases rest with
        | nil => simp [isDigComma, isDigitCh] at hd
        | cons d rest' =>
          have hd' : isDigComma d = true := by simpa using hd
          rw [dollarPairs_cons_of_cond hc hd']
          obtain ⟨junk, hdecomp, hjunk⟩ := hF (d :: rest')
          have hlenF : (restF (d :: rest')).length ≤ fuel := by
            have h1 := congrArg List.length hdecomp
            simp only [List.length_append, List.length_cons] at h1 hl
            omega
          rw [ih _ hlenF]
          have h2 := dollarPairs_append_of_no_dollar junk
            (restF (d :: rest')) hjunk
          rw [congrArg dollarPairs hdecomp, h2]
      · rw [if_neg hcond]
        have hlen : rest.length ≤ fuel := by
          simp only [List.length_cons] at hl
          omega
        rw [ih rest hlen]
        exact (dollarPairs_cons_of_not_cond hcond).symm

theorem countCurrencyCode_eq_dollarPairs (l : List Char) :
    countCurrencyCode l = dollarPairs l :=
  countCurrencyGo_eq_dollarPairs currencyRestCode currencyRestCode_decomp
    l.length l (Nat.le_refl _)

theorem countCurrencySpec_eq_dollarPairs (l : List Char) :
    countCurrencySpec l = dollarPairs l :=
  countCurrencyGo_eq_dollarPairs currencyRestSpec currencyRestSpec_decomp
    l.length l (Nat.le_refl _)

theorem countCurrencyCode_eq_countCurrencySpec (l : List Char) :
    countCurrencyCode l = countCurrencySpec l := by
  rw [countCurrencyCode_eq_dollarPairs, countCurrencySpec_eq_dollarPairs]

theorem search_tables_length_le (store : List TableDoc)
    (ff : Option String) : (search_tables store ff).length ≤ 5 := by
  unfold search_tables
  simp [List.length_take]

theorem search_tables_filtered (store : List TableDoc) (f : String)
    (hf : f ≠ "") :
    search_tables store (some f) =
      (store.filter (fun r => r.source_filename == f)).take 5 := by
  unfold search_tables
  simp [hf]

/-! ## Claim theorems -/

/-- Claim C2, counterexample: on the text `"3a b 3a b 3a b 3a b"` the
source heuristic fires (check 4 uses Python `re.match`, which accepts
the token `3a` on its prefix `3`), while the claim's five clauses — with
a token numeric-like only when the whole token matches `[\d$,.-]+` —
all fail. -/
theorem is_table_like_text_claim_cex :
    is_table_like_text "3a b 3a b 3a b 3a b".data (0 : Nat) = true ∧
    specTableLikeClaim "3a b 3a b 3a b 3a b".data = false := by
  constructor
  · decide
  · decide

/-- Claim C2 (amended): `_is_table_like_text(text)` returns `True` iff
one of the claim's five clauses holds for `text`, with clause (4)
amended so that a token counts as numeric-like iff it has a non-empty
prefix in `[\d$,.-]+` (i.e. its first character is a digit, `$`, comma,
dot, or hyphen — Python `re.match` semantics); all other clauses as the
claim words them. -/
theorem is_table_like_text_eq_amended_spec (text : List Char)
    (element : α) :
    is_table_like_text text element = specTableLikeAmended text := by
  unfold is_table_like_text specTableLikeAmended
  rw [countCurrencyCode_eq_countCurrencySpec]
  split_ifs with h1 h2 h3 h4 h5 <;> simp_all

/-- Claim C9: the table-likeness classification is a pure function of
the text alone — the `element` argument (of any type, with any value)
has no effect on the outcome, so repeated calls agree. -/
theorem is_table_like_text_element_independent (text : List Char)
    (e₁ : α) (e₂ : β) :
    is_table_like_text text e₁ = is_table_like_text text e₂ := rfl

/-- Claim C4: on empty retrieval results the two context formatters
return their fixed sentinel strings (empty input is rendered, not an
error). -/
theorem format_context_empty_sentinels :
    format_text_context [] = "No relevant text chunks found." ∧
    format_table_context [] = "No relevant tables found." :=
  ⟨rfl, rfl⟩

/-- Claim C1, counterexample: a rank-1 payload that contains a
`source_filename` equal to the empty string defeats the scoping — the
Python truthiness test `if file_filter:` drops the filter, and the
table search returns records of other files (here from a store holding
two files), instead of records of the identified filename `""`. -/
theorem ask_table_retrieval_claim_cex :
    ask_table_retrieval [⟨some "c", some ""⟩]
        [⟨"x", "other.pdf"⟩, ⟨"y", "second.pdf"⟩] =
      [⟨"x", "other.pdf"⟩, ⟨"y", "second.pdf"⟩] ∧
    ("other.pdf" : String) ≠ "" := by
  constructor
  · rfl
  · decide

/-- Claim C1 (amended): in `QueryEngine.ask`, (a) at most 5 table
records are returned; (b) if the vector search returns at least one
result and the rank-1 payload carries a non-empty `source_filename`,
every returned table record comes from exactly that file; (c) if the
vector results are empty, or the rank-1 payload lacks
`source_filename`, or carries an empty one, the table search runs
unfiltered (first 5 records of the store). -/
theorem ask_table_retrieval_scoping (vc : List ChunkPayload)
    (store : List TableDoc) :
    (ask_table_retrieval vc store).length ≤ 5 ∧
    (∀ p rest f, vc = p :: rest → p.source_filename = some f → f ≠ "" →
      ∀ r ∈ ask_table_retrieval vc store, r.source_filename = f) ∧
    ((vc = [] ∨ ∃ p rest, vc = p :: rest ∧
        (p.source_filename = none ∨ p.source_filename = some "")) →
      ask_table_retrieval vc store = store.take 5) := by
  refine ⟨?_, ?_, ?_⟩
  · unfold ask_table_retrieval
    exact search_tables_length_le store _
  · intro p rest f hvc hsf hne r hr
    subst hvc
    dsimp only [ask_table_retrieval] at hr
    rw [hsf, search_tables_filtered store f hne] at hr
    have hmem := List.take_subset 5 _ hr
    have := (List.mem_filter.mp hmem).2
    exact eq_of_beq this
  · intro h
    rcases h with rfl | ⟨p, rest, rfl, hsf⟩
    · rfl
    · rcases hsf with hnone | hempty
      · dsimp only [ask_table_retrieval]
        rw [hnone]
        rfl
      · dsimp only [ask_table_retrieval]
        rw [hempty]
        simp [search_tables]

/-- Claim C1, witness: on a store with files `a.pdf` and `b.pdf` and a
rank-1 payload naming `a.pdf`, the theorem yields the bound and the
scoping of a concrete returned record. -/
theorem ask_table_retrieval_scoping_witness :
    (ask_table_retrieval [⟨some "c", some "a.pdf"⟩]
        [⟨"x", "a.pdf"⟩, ⟨"y", "b.pdf"⟩]).length ≤ 5 ∧
    (TableDoc.mk "x" "a.pdf").source_filename = "a.pdf" ∧
    ask_table_retrieval [] [⟨"x", "a.pdf"⟩, ⟨"y", "b.pdf"⟩] =
      ([⟨"x", "a.pdf"⟩, ⟨"y", "b.pdf"⟩] : List TableDoc).take 5 :=
  ⟨(ask_table_retrieval_scoping [⟨some "c", some "a.pdf"⟩]
      [⟨"x", "a.pdf"⟩, ⟨"y", "b.pdf"⟩]).1,
   (ask_table_retrieval_scoping [⟨some "c", some "a.pdf"⟩]
      [⟨"x", "a.pdf"⟩, ⟨"y", "b.pdf"⟩]).2.1
     ⟨some "c", some "a.pdf"⟩ [] "a.pdf" rfl rfl (by decide)
     ⟨"x", "a.pdf"⟩ (by decide),
   (ask_table_retrieval_scoping []
      [⟨"x", "a.pdf"⟩, ⟨"y", "b.pdf"⟩]).2.2 (Or.inl rfl)⟩

theorem dedupGo_eq_specNonEmpty (key : String) :
    ∀ (results : List (List (String × String))) (seen : List String)
      (prev : List (List (String × String))),
      (∀ v, v ∈ seen ↔ (v ≠ "" ∧ ∃ r ∈ prev, trimmedVal r key = v)) →
      dedupGo key seen results =
        specDedupFirstNonEmptyOccurrence key prev results := by
  intro results
  induction results with
  | nil => intro seen prev _; rfl
  | cons r rest ih =>
    intro seen prev hinv
    simp only [dedupGo, specDedupFirstNonEmptyOccurrence]
    by_cases hcode : trimmedVal r key ≠ "" ∧ trimmedVal r key ∉ seen
    · rw [if_pos hcode]
      have hspec : trimmedVal r key ≠ "" ∧
          ∀ p ∈ prev, trimmedVal p key ≠ trimmedVal r key := by
        refine ⟨hcode.1, fun p hp hpv => hcode.2 ?_⟩
        exact (hinv _).mpr ⟨hcode.1, p, hp, hpv⟩
      rw [if_pos hspec]
      congr 1
      apply ih
      intro w
      constructor
      · intro hw
        rcases List.mem_cons.mp hw with rfl | hw
        · exact ⟨hcode.1, r, by simp, rfl⟩
        · obtain ⟨hne, p, hp, hpv⟩ := (hinv w).mp hw
          exact ⟨hne, p, List.mem_append_left _ hp, hpv⟩
      · rintro ⟨hne, p, hp, hpv⟩
        rcases List.mem_append.mp hp with hp | hp
        · exact List.mem_cons_of_mem _ ((hinv w).mpr ⟨hne, p, hp, hpv⟩)
        · have hpr : p = r := by simpa using hp
          subst hpr
          rw [← hpv]
          exact List.mem_cons_self _ _
    · rw [if_neg hcode]
      have hspec : ¬(trimmedVal r key ≠ "" ∧
          ∀ p ∈ prev, trimmedVal p key ≠ trimmedVal r key) := by
        rintro ⟨hne, hall⟩
        apply hcode
        refine ⟨hne, fun hv => ?_⟩
        obtain ⟨_, p, hp, hpv⟩ := (hinv _).mp hv
        exact hall p hp hpv
      rw [if_neg hspec]
      apply ih
      intro w
      constructor
      · intro hw
        obtain ⟨hne, p, hp, hpv⟩ := (hinv w).mp hw
        exact ⟨hne, p, List.mem_append_left _ hp, hpv⟩
      · rintro ⟨hne, p, hp, hpv⟩
        rcases List.mem_append.mp hp with hp | hp
        · exact (hinv w).mpr ⟨hne, p, hp, hpv⟩
        · have hpr : p = r := by simpa using hp
          subst hpr
          have : trimmedVal p key = "" ∨ trimmedVal p key ∈ seen := by
            by_contra hcon
            push_neg at hcon
            exact hcode ⟨hcon.1, hcon.2⟩
          rcases this with hzero | hseen
          · exact absurd (hpv ▸ hzero) hne
          · exact hpv ▸ hseen

/-- Claim C8, counterexample: a record whose trimmed field value is
empty is dropped by the source (the `if value and ...` truthiness
test), while the claim's "first occurrence of each distinct trimmed
value" keeps it. -/
theorem deduplicate_results_claim_cex :
    deduplicate_results [[("text", "  ")]] "text" = [] ∧
    specDedupFirstOccurrence "text" [] [[("text", "  ")]] =
      [[("text", "  ")]] := by
  constructor
  · rfl
  · decide

/-- Claim C8 (amended): `deduplicate_results` keeps, in original order,
the first occurrence of each distinct non-empty trimmed value of the
field, dropping every record whose trimmed value is empty (or whose
field is missing); in particular on `[{text:'a'},{text:'a'},{text:'b'}]`
with key `text` it returns the two records valued `a` then `b`. -/
theorem deduplicate_results_first_occurrence
    (results : List (List (String × String))) (key : String) :
    deduplicate_results results key =
      specDedupFirstNonEmptyOccurrence key [] results ∧
    deduplicate_results [[("text", "a")], [("text", "a")], [("text", "b")]]
        "text" = [[("text", "a")], [("text", "b")]] := by
  constructor
  · exact dedupGo_eq_specNonEmpty key results [] [] (by simp)
  · rfl

theorem extract_table_text_aux (tables : List PipelineTable)
    (acc : List String) :
    tables.foldl (fun acc t =>
      match t.content with
      | none => acc
      | some c =>
        if c = "" then acc
        else
          let cleaned := cleanedTableText c
          if 10 < cleaned.length then
            acc ++ ["Table data: " ++ String.mk cleaned]
          else acc) acc =
      acc ++ specExtractTableTextAmended tables := by
  induction tables generalizing acc with
  | nil => simp [specExtractTableTextAmended]
  | cons t rest ih =>
    simp only [List.foldl_cons, specExtractTableTextAmended,
      List.filterMap_cons]
    cases ht : t.content with
    | none =>
      simp only [ht]
      exact ih acc
    | some c =>
      simp only [ht]
      by_cases hc : c = ""
      · rw [if_pos hc, if_pos hc]
        exact ih acc
      · rw [if_neg hc, if_neg hc]
        by_cases hlen : 10 < (cleanedTableText c).length
        · simp only [if_pos hlen]
          rw [ih]
          simp [specExtractTableTextAmended]
        · simp only [if_neg hlen]
          exact ih acc

/-- Claim C5, counterexample: the source substitutes a *space* for each
HTML tag before collapsing whitespace, while the claim's cleaning
*removes* tags; on `<td>Revenue</td><td>123456</td>` the source emits
`Table data: Revenue 123456` where the claim predicts
`Table data: Revenue123456`. -/
theorem extract_table_text_claim_cex :
    extract_table_text_for_vectorization
        [⟨some "<td>Revenue</td><td>123456</td>"⟩] =
      ["Table data: Revenue 123456"] ∧
    specExtractTableTextClaim [⟨some "<td>Revenue</td><td>123456</td>"⟩] =
      ["Table data: Revenue123456"] ∧
    ("Table data: Revenue 123456" : String) ≠
      "Table data: Revenue123456" := by
  refine ⟨?_, ?_, ?_⟩
  · rfl
  · rfl
  · decide

/-- Claim C5 (amended): `extract_table_text_for_vectorization` returns,
in input order, one string per table whose content — after replacing
each HTML tag by a single space, collapsing whitespace runs and
trimming — is strictly longer than 10 characters, each string being
exactly `Table data: ` followed by that cleaned text; tables with
missing, non-string, or short-after-cleaning content contribute
nothing. -/
theorem extract_table_text_eq_amended (tables : List PipelineTable) :
    extract_table_text_for_vectorization tables =
      specExtractTableTextAmended tables := by
  unfold extract_table_text_for_vectorization
  rw [extract_table_text_aux]
  simp

theorem find_map_overwrite {k : String} {e : CacheEntry α} :
    ∀ cache : List (String × CacheEntry α),
      cache.any (fun p => p.1 == k) = true →
      (cache.map (fun p => if p.1 == k then (k, e) else p)).find?
          (fun p => p.1 == k) = some (k, e) := by
  intro cache
  induction cache with
  | nil => intro h; simp at h
  | cons p rest ih =>
    intro h
    by_cases hp : (p.1 == k) = true
    · simp [List.find?, hp]
    · have hrest : rest.any (fun p => p.1 == k) = true := by
        simp [List.any_cons, hp] at h ⊢
        tauto
      simp only [List.map_cons]
      rw [if_neg hp, List.find?_cons_of_neg _ (by simpa using hp)]
      exact ih hrest

theorem find_append_self {k : String} {e : CacheEntry α} :
    ∀ cache : List (String × CacheEntry α),
      cache.any (fun p => p.1 == k) = false →
      (cache ++ [(k, e)]).find? (fun p => p.1 == k) = some (k, e) := by
  intro cache
  induction cache with
  | nil => simp [List.find?]
  | cons p rest ih =>
    intro h
    simp only [List.any_cons, Bool.or_eq_false_iff] at h
    simp only [List.cons_append, List.find?, h.1]
    exact ih h.2

theorem lookupEntry_insertEntry_self
    (cache : List (String × CacheEntry α)) (k : String) (e : CacheEntry α) :
    lookupEntry (insertEntry cache k e) k = some e := by
  unfold insertEntry lookupEntry
  by_cases h : cache.any (fun p => p.1 == k) = true
  · rw [if_pos h, find_map_overwrite cache h]
    rfl
  · rw [if_neg h, find_append_self cache (Bool.not_eq_true _ ▸ h)]
    rfl

theorem lookupEntry_eraseKey_self
    (cache : List (String × CacheEntry α)) (k : String) :
    lookupEntry (eraseKey cache k) k = none := by
  unfold eraseKey lookupEntry
  induction cache with
  | nil => rfl
  | cons p rest ih =>
    by_cases hp : (p.1 == k) = true
    · simp only [List.filter_cons, hp, Bool.not_true, if_false]
      exact ih
    · simp only [List.filter_cons, hp, Bool.not_false, if_true,
        List.find?, hp]
      exact ih

theorem lookupEntry_set_self (st : InMemoryCache α) (k : String) (v : α)
    (ttl now : Int) (hmax : 0 < st.max_entries) :
    lookupEntry ((st.set k v ttl now).cache) k =
      some (mkCacheEntry v ttl now) := by
  unfold InMemoryCache.set
  by_cases hfull : st.max_entries ≤ st.cache.length
  · rw [if_pos hfull]
    have hne : st.cache ≠ [] := by
      intro h0
      rw [h0] at hfull
      simp at hfull
      omega
    rcases hcc : st.cache with _ | ⟨⟨k0, e0⟩, rest⟩
    · exact absurd hcc hne
    · simp only [oldestKey?]
      exact lookupEntry_insertEntry_self _ k _
  · rw [if_neg hfull]
    exact lookupEntry_insertEntry_self _ k _

theorem set_get_same (st : InMemoryCache α) (k : String) (v : α)
    (ttl now : Int) (hmax : 0 < st.max_entries) (httl : 0 < ttl)
    (hnow : 0 ≤ now) :
    ((st.set k v ttl now).get k now).1 = some v := by
  have hexp : entryExpired (mkCacheEntry v ttl now) now = false := by
    simp [mkCacheEntry, entryExpired, httl]
    omega
  unfold InMemoryCache.get
  rw [lookupEntry_set_self st k v ttl now hmax]
  dsimp only
  rw [hexp]
  simp [mkCacheEntry]

theorem set_get_expired (st : InMemoryCache α) (k : String) (v : α)
    (ttl now later : Int) (hmax : 0 < st.max_entries) (httl : 0 < ttl)
    (hnow : 0 ≤ now) (hlater : now + ttl < later) :
    ((st.set k v ttl now).get k later).1 = none ∧
    lookupEntry (((st.set k v ttl now).get k later).2).cache k = none := by
  have hexp : entryExpired (mkCacheEntry v ttl now) later = true := by
    simp [mkCacheEntry, entryExpired, httl]
    omega
  unfold InMemoryCache.get
  rw [lookupEntry_set_self st k v ttl now hmax]
  dsimp only
  rw [hexp]
  simp only [if_pos rfl]
  exact ⟨rfl, lookupEntry_eraseKey_self _ k⟩

/-- Claim C6: for the in-memory backend with a positive TTL (and a
well-formed positive capacity, the constructor default), a `set`
followed by a `get` of the same key under the same clock returns the
value, and a `get` strictly after `ttl` seconds have elapsed returns
`None`, the expired entry being deleted from the map. -/
theorem inMemoryCache_set_get_ttl (st : InMemoryCache α) (k : String)
    (v : α) (ttl now later : Int) (hmax : 0 < st.max_entries)
    (httl : 0 < ttl) (hnow : 0 ≤ now) :
    ((st.set k v ttl now).get k now).1 = some v ∧
    (now + ttl < later →
      ((st.set k v ttl now).get k later).1 = none ∧
      lookupEntry (((st.set k v ttl now).get k later).2).cache k = none) :=
  ⟨set_get_same st k v ttl now hmax httl hnow,
   fun hlater => set_get_expired st k v ttl now later hmax httl hnow hlater⟩

/-- Claim C6, witness: a concrete run with `ttl = 5`, set at clock 0,
read back at clock 0 and then at clock 6. -/
theorem inMemoryCache_set_get_ttl_witness :
    ((((InMemoryCache.empty 1000 : InMemoryCache Nat).set "k" 7 5 0).get
        "k" 0).1 = some 7) ∧
    ((((InMemoryCache.empty 1000 : InMemoryCache Nat).set "k" 7 5 0).get
        "k" 6).1 = none ∧
      lookupEntry (((((InMemoryCache.empty 1000 : InMemoryCache Nat).set
        "k" 7 5 0).get "k" 6)).2).cache "k" = none) :=
  ⟨(inMemoryCache_set_get_ttl (InMemoryCache.empty 1000) "k" 7 5 0 6
      (by decide) (by decide) (by decide)).1,
   (inMemoryCache_set_get_ttl (InMemoryCache.empty 1000) "k" 7 5 0 6
      (by decide) (by decide) (by decide)).2 (by decide)⟩

theorem oldestKeyAux_spec :
    ∀ (l : List (String × CacheEntry α)) (bk : String) (bc : Int),
      (oldestKeyAux (bk, bc) l = bk ∧ ∀ p ∈ l, bc ≤ p.2.created_at) ∨
      (∃ e, (oldestKeyAux (bk, bc) l, e) ∈ l ∧ e.created_at ≤ bc ∧
        ∀ p ∈ l, e.created_at ≤ p.2.created_at) := by
  intro l
  induction l with
  | nil => intro bk bc; left; exact ⟨rfl, by simp⟩
  | cons q rest ih =>
    intro bk bc
    obtain ⟨k, e⟩ := q
    simp only [oldestKeyAux]
    by_cases hlt : e.created_at < bc
    · rw [if_pos hlt]
      rcases ih k e.created_at with ⟨heq, hmin⟩ | ⟨e', hmem, hle, hmin⟩
      · right
        refine ⟨e, ?_, le_of_lt hlt, ?_⟩
        · rw [heq]; exact List.mem_cons_self _ _
        · intro p hp
          rcases List.mem_cons.mp hp with rfl | hp
          · exact le_refl _
          · exact hmin p hp
      · right
        refine ⟨e', List.mem_cons_of_mem _ hmem, le_of_lt (lt_of_le_of_lt hle hlt), ?_⟩
        intro p hp
        rcases List.mem_cons.mp hp with rfl | hp
        · exact hle
        · exact hmin p hp
    · rw [if_neg hlt]
      push_neg at hlt
      rcases ih bk bc with ⟨heq, hmin⟩ | ⟨e', hmem, hle, hmin⟩
      · left
        refine ⟨heq, fun p hp => ?_⟩
        rcases List.mem_cons.mp hp with rfl | hp
        · exact hlt
        · exact hmin p hp
      · right
        refine ⟨e', List.mem_cons_of_mem _ hmem, hle, fun p hp => ?_⟩
        rcases List.mem_cons.mp hp with rfl | hp
        · exact le_trans hle hlt
        · exact hmin p hp

theorem oldestKey?_spec (cache : List (String × CacheEntry α))
    (hne : cache ≠ []) :
    ∃ ok e_ok, oldestKey? cache = some ok ∧ (ok, e_ok) ∈ cache ∧
      ∀ p ∈ cache, e_ok.created_at ≤ p.2.created_at := by
  rcases cache with _ | ⟨⟨k0, e0⟩, rest⟩
  · exact absurd rfl hne
  · simp only [oldestKey?]
    rcases oldestKeyAux_spec rest k0 e0.created_at with
      ⟨heq, hmin⟩ | ⟨e', hmem, hle, hmin⟩
    · refine ⟨_, e0, rfl, ?_, ?_⟩
      · rw [heq]; exact List.mem_cons_self _ _
      · intro p hp
        rcases List.mem_cons.mp hp with rfl | hp
        · exact le_refl _
        · exact hmin p hp
    · refine ⟨_, e', rfl, List.mem_cons_of_mem _ hmem, ?_⟩
      intro p hp
      rcases List.mem_cons.mp hp with rfl | hp
      · exact hle
      · exact hmin p hp

theorem insertEntry_length_le (cache : List (String × CacheEntry α))
    (k : String) (e : CacheEntry α) :
    (insertEntry cache k e).length ≤ cache.length + 1 := by
  unfold insertEntry
  by_cases h : cache.any (fun p => p.1 == k) = true
  · rw [if_pos h]
    simp
  · rw [if_neg h]
    simp

theorem eraseKey_length_lt (cache : List (String × CacheEntry α))
    (k : String) (e : CacheEntry α) (hmem : (k, e) ∈ cache) :
    (eraseKey cache k).length < cache.length := by
  unfold eraseKey
  induction cache with
  | nil => simp at hmem
  | cons p rest ih =>
    rcases List.mem_cons.mp hmem with heq | hmem
    · rw [List.filter_cons_of_neg (by simp [← heq])]
      have := List.length_filter_le (fun p => !(p.1 == k)) rest
      simp only [List.length_cons]
      omega
    · by_cases hp : (p.1 == k) = true
      · rw [List.filter_cons_of_neg (by simp [hp])]
        have := List.length_filter_le (fun p => !(p.1 == k)) rest
        simp only [List.length_cons]
        omega
      · rw [List.filter_cons_of_pos (by simp [hp])]
        have := ih hmem
        simp only [List.length_cons]
        omega

theorem eraseKey_length_le (cache : List (String × CacheEntry α))
    (k : String) : (eraseKey cache k).length ≤ cache.length :=
  List.length_filter_le _ cache

theorem cacheGet_length_le (st : InMemoryCache α) (k : String) (now : Int) :
    ((st.get k now).2).cache.length ≤ st.cache.length ∧
    ((st.get k now).2).max_entries = st.max_entries := by
  unfold InMemoryCache.get
  rcases hl : lookupEntry st.cache k with _ | e <;> simp only [hl]
  · exact ⟨le_refl _, trivial⟩
  · by_cases hexp : entryExpired e now = true
    · rw [if_pos hexp]
      exact ⟨eraseKey_length_le st.cache k, rfl⟩
    · rw [if_neg hexp]
      exact ⟨le_refl _, rfl⟩

theorem cacheSet_length_le (st : InMemoryCache α) (k : String) (v : α)
    (ttl now : Int) (hinv : st.cache.length ≤ st.max_entries) :
    ((st.set k v ttl now)).cache.length ≤ st.max_entries ∧
    ((st.set k v ttl now)).max_entries = st.max_entries := by
  unfold InMemoryCache.set
  by_cases hfull : st.max_entries ≤ st.cache.length
  · rw [if_pos hfull]
    rcases hne : st.cache with _ | ⟨⟨k0, e0⟩, rest⟩
    · simp only [oldestKey?]
      exact ⟨hinv, trivial⟩
    · obtain ⟨ok, e_ok, hok, hmem, hmin⟩ := oldestKey?_spec st.cache
        (by rw [hne]; simp)
      rw [hne] at hok hmem hinv
      rw [hok]
      dsimp only
      refine ⟨?_, rfl⟩
      have h1 := eraseKey_length_lt ((k0, e0) :: rest) ok e_ok hmem
      have h2 := insertEntry_length_le (eraseKey ((k0, e0) :: rest) ok) k
        (mkCacheEntry v ttl now)
      omega
  · rw [if_neg hfull]
    dsimp only
    refine ⟨?_, rfl⟩
    have h2 := insertEntry_length_le st.cache k (mkCacheEntry v ttl now)
    omega

theorem applyCacheOp_inv (st : InMemoryCache α) (op : CacheOp α)
    (hinv : st.cache.length ≤ st.max_entries) :
    (applyCacheOp st op).cache.length ≤ (applyCacheOp st op).max_entries ∧
    (applyCacheOp st op).max_entries = st.max_entries := by
  cases op with
  | get k now =>
    obtain ⟨h1, h2⟩ := cacheGet_length_le st k now
    exact ⟨by rw [show applyCacheOp st (CacheOp.get k now) = (st.get k now).2
      from rfl, h2]; omega, h2⟩
  | set k v ttl now =>
    obtain ⟨h1, h2⟩ := cacheSet_length_le st k v ttl now hinv
    exact ⟨by rw [show applyCacheOp st (CacheOp.set k v ttl now) =
      st.set k v ttl now from rfl, h2]; omega, h2⟩
  | del k =>
    simp only [applyCacheOp]
    unfold InMemoryCache.del
    by_cases h : st.cache.any (fun p => p.1 == k) = true
    · rw [if_pos h]
      dsimp only
      refine ⟨?_, rfl⟩
      have := eraseKey_length_le st.cache k
      omega
    · rw [if_neg h]
      exact ⟨hinv, rfl⟩
  | clear => exact ⟨by simp [applyCacheOp, InMemoryCache.clear], rfl⟩

theorem runCacheOps_inv :
    ∀ (ops : List (CacheOp α)) (st : InMemoryCache α),
      st.cache.length ≤ st.max_entries →
      (runCacheOps ops st).cache.length ≤ (runCacheOps ops st).max_entries := by
  intro ops
  induction ops with
  | nil => intro st hinv; exact hinv
  | cons op rest ih =>
    intro st hinv
    have hstep := applyCacheOp_inv st op hinv
    exact ih (applyCacheOp st op) hstep.1

theorem applyCacheOp_max (st : InMemoryCache α) (op : CacheOp α) :
    (applyCacheOp st op).max_entries = st.max_entries := by
  cases op with
  | get k now => exact (cacheGet_length_le st k now).2
  | set k v ttl now =>
    show (st.set k v ttl now).max_entries = st.max_entries
    unfold InMemoryCache.set
    by_cases hfull : st.max_entries ≤ st.cache.length
    · rw [if_pos hfull]
      rcases h : oldestKey? st.cache with _ | ok <;> simp only [h]
    · rw [if_neg hfull]
  | del k =>
    show (st.del k).max_entries = st.max_entries
    unfold InMemoryCache.del
    by_cases h : st.cache.any (fun p => p.1 == k) = true
    · rw [if_pos h]
    · rw [if_neg h]
  | clear => rfl

theorem runCacheOps_max :
    ∀ (ops : List (CacheOp α)) (st : InMemoryCache α),
      (runCacheOps ops st).max_entries = st.max_entries := by
  intro ops
  induction ops with
  | nil => intro st; rfl
  | cons op rest ih =>
    intro st
    have h1 : runCacheOps (op :: rest) st =
        runCacheOps rest (applyCacheOp st op) := rfl
    rw [h1, ih, applyCacheOp_max]

/-- Claim C7: starting from an empty `InMemoryCache`, no sequence of
`get`/`set`/`delete`/`clear` operations ever makes the map exceed
`max_entries` entries; and whenever `set` is called on a map already
holding `max_entries` (non-zero) entries, the entry with the smallest
`created_at` (the first such in insertion order, matching Python `min`)
is evicted before the new entry is stored. -/
theorem inMemoryCache_bounded_eviction (maxE : Nat)
    (ops : List (CacheOp α)) :
    (runCacheOps ops (InMemoryCache.empty maxE)).cache.length ≤ maxE ∧
    (∀ st : InMemoryCache α, st.cache.length = st.max_entries →
      st.cache ≠ [] → ∀ k v ttl now, ∃ ok e_ok,
        oldestKey? st.cache = some ok ∧ (ok, e_ok) ∈ st.cache ∧
        (∀ p ∈ st.cache, e_ok.created_at ≤ p.2.created_at) ∧
        st.set k v ttl now =
          { st with cache :=
              (insertEntry (eraseKey st.cache ok) k
                (mkCacheEntry v ttl now)) }) := by
  constructor
  · have h1 := runCacheOps_inv ops (InMemoryCache.empty maxE)
      (by simp [InMemoryCache.empty])
    have h2 := runCacheOps_max ops (InMemoryCache.empty maxE)
    rw [h2] at h1
    exact h1
  · intro st hsize hne k v ttl now
    obtain ⟨ok, e_ok, hok, hmem, hmin⟩ := oldestKey?_spec st.cache hne
    refine ⟨ok, e_ok, hok, hmem, hmin, ?_⟩
    unfold InMemoryCache.set
    rw [if_pos (le_of_eq hsize.symm), hok]

/-- Claim C7, witness: three inserts into a capacity-2 cache stay within
bound, and on a full concrete cache whose second entry is the oldest by
`created_at`, `set` evicts exactly that entry. -/
theorem inMemoryCache_bounded_eviction_witness :
    (runCacheOps [CacheOp.set "a" (1 : Nat) 10 0, CacheOp.set "b" 2 10 1,
        CacheOp.set "c" 3 10 2] (InMemoryCache.empty 2)).cache.length ≤ 2 ∧
    (∃ ok e_ok,
      oldestKey? (⟨[("a", ⟨1, 5, some 10⟩), ("b", ⟨2, 3, some 11⟩)], 2, 0,
        0⟩ : InMemoryCache Nat).cache = some ok ∧
      (ok, e_ok) ∈ (⟨[("a", ⟨1, 5, some 10⟩), ("b", ⟨2, 3, some 11⟩)], 2,
        0, 0⟩ : InMemoryCache Nat).cache ∧
      (∀ p ∈ (⟨[("a", ⟨1, 5, some 10⟩), ("b", ⟨2, 3, some 11⟩)], 2, 0,
        0⟩ : InMemoryCache Nat).cache,
        e_ok.created_at ≤ p.2.created_at) ∧
      (⟨[("a", ⟨1, 5, some 10⟩), ("b", ⟨2, 3, some 11⟩)], 2, 0,
        0⟩ : InMemoryCache Nat).set "c" 3 5 7 =
        { (⟨[("a", ⟨1, 5, some 10⟩), ("b", ⟨2, 3, some 11⟩)], 2, 0,
            0⟩ : InMemoryCache Nat) with cache :=
            (insertEntry
              (eraseKey (⟨[("a", ⟨1, 5, some 10⟩), ("b", ⟨2, 3, some 11⟩)],
                2, 0, 0⟩ : InMemoryCache Nat).cache ok) "c"
              (mkCacheEntry 3 5 7)) }) :=
  ⟨(inMemoryCache_bounded_eviction 2 [CacheOp.set "a" (1 : Nat) 10 0,
      CacheOp.set "b" 2 10 1, CacheOp.set "c" 3 10 2]).1,
   (inMemoryCache_bounded_eviction 2 ([] : List (CacheOp Nat))).2
     ⟨[("a", ⟨1, 5, some 10⟩), ("b", ⟨2, 3, some 11⟩)], 2, 0, 0⟩
     rfl (by decide) "c" 3 5 7⟩

/-- Claim C10: the query-cache key is the cache type plus a hash of
`f"{question}:{file_filter}"`; this pre-hash string is not injective
over (question, file_filter) pairs — question `"a:b"` with no filter
and question `"a"` with filter `"b:None"` collide — so for every hash
function, caching one pair serves the other pair's lookup (for a truthy
cached result under a well-formed backend). -/
theorem query_cache_key_collision (h : String → String)
    (qc : QueryCache α) (result : α) (truthy : α → Bool) (now : Int)
    (hmax : 0 < qc.backend.max_entries) (httl : 0 < qc.ttl_seconds)
    (hnow : 0 ≤ now) (htr : truthy result = true) :
    queryKeyString "a:b" none = queryKeyString "a" (some "b:None") ∧
    ("a:b", (none : Option String)) ≠ ("a", some "b:None") ∧
    ((qc.set_query_cache h "a:b" result none now).get_query_cache h
        truthy "a" (some "b:None") now).1 = some result := by
  refine ⟨rfl, by simp, ?_⟩
  unfold QueryCache.get_query_cache QueryCache.set_query_cache
  dsimp only
  have hget := set_get_same qc.backend
    (make_key h "query" (queryKeyString "a:b" none)) result
    qc.ttl_seconds now hmax httl hnow
  rw [show make_key h "query" (queryKeyString "a" (some "b:None")) =
    make_key h "query" (queryKeyString "a:b" none) from rfl]
  rw [hget]
  simp [htr]

/-- Claim C10, witness: the collision realized with the identity in
place of the hash, a fresh default backend, and a truthy result. -/
theorem query_cache_key_collision_witness :
    queryKeyString "a:b" none = queryKeyString "a" (some "b:None") ∧
    ("a:b", (none : Option String)) ≠ ("a", some "b:None") ∧
    (QueryCache.get_query_cache
        (QueryCache.set_query_cache
          (⟨InMemoryCache.empty 1000, 3600, 0, 0⟩ : QueryCache Nat)
          (fun s => s) "a:b" 42 none 0)
        (fun s => s) (fun _ => true) "a" (some "b:None") 0).1 = some 42 :=
  query_cache_key_collision (fun s => s)
    ⟨InMemoryCache.empty 1000, 3600, 0, 0⟩ 42 (fun _ => true) 0
    (by decide) (by decide) (by decide) rfl

theorem dropWhileTail_subset (p : Char → Bool) (l : List Char) :
    ∀ c ∈ (l.dropWhile p).tail, c ∈ l := fun c hc =>
  List.dropWhile_subset p ((List.tail_sublist _).subset hc)

theorem matchOpenTag_subset (isSecond : Char → Bool)
    (l after : List Char) (h : matchOpenTag isSecond l = some after) :
    ∀ c ∈ after, c ∈ l := by
  unfold matchOpenTag at h
  rcases l with _ | ⟨c1, _ | ⟨c2, _ | ⟨c3, rest⟩⟩⟩
  · simp at h
  · simp at h
  · simp at h
  · dsimp only at h
    by_cases hcond : (c1 = '<' && (c2 = 't' || c2 = 'T') && isSecond c3)
      = true
    · rw [if_pos hcond] at h
      by_cases hhd : ((rest.dropWhile (fun c => !(c = '>'))).headD ' '
          = '>')
      · rw [if_pos hhd] at h
        obtain rfl := Option.some.inj h
        intro c hc
        have h1 := dropWhileTail_subset (fun c => !(c = '>')) rest c hc
        exact List.mem_cons_of_mem _ (List.mem_cons_of_mem _
          (List.mem_cons_of_mem _ h1))
      · rw [if_neg hhd] at h
        exact absurd h (by simp)
    · rw [if_neg hcond] at h
      exact absurd h (by simp)

theorem closeTagSplit_subset (isSecond : Char → Bool) :
    ∀ (l cont after : List Char),
      closeTagSplit isSecond l = some (cont, after) →
      (∀ c ∈ cont, c ∈ l) ∧ (∀ c ∈ after, c ∈ l) := by
  intro l
  induction l with
  | nil => intro cont after h; simp [closeTagSplit] at h
  | cons x rest ih =>
    intro cont after h
    simp only [closeTagSplit] at h
    by_cases hc : isCloseTagAt isSecond (x :: rest) = true
    · rw [if_pos hc] at h
      obtain h' := Option.some.inj h
      injection h' with h1 h2
      subst h1
      subst h2
      exact ⟨by simp, fun c hc' => List.drop_subset _ _ hc'⟩
    · rw [if_neg hc] at h
      rcases hr : closeTagSplit isSecond rest with _ | ⟨cont', after'⟩
      · rw [hr] at h
        exact Option.noConfusion h
      · rw [hr] at h
        obtain h' := Option.some.inj h
        injection h' with h1 h2
        subst h1
        subst h2
        obtain ⟨ih1, ih2⟩ := ih cont' after' hr
        constructor
        · intro c hc'
          rcases List.mem_cons.mp hc' with rfl | hc'
          · exact List.mem_cons_self _ _
          · exact List.mem_cons_of_mem _ (ih1 c hc')
        · exact fun c hc' => List.mem_cons_of_mem _ (ih2 c hc')

theorem findTagGo_mem_subset (isSecond : Char → Bool) :
    ∀ (fuel : Nat) (l row : List Char),
      row ∈ findTagGo isSecond fuel l → ∀ c ∈ row, c ∈ l := by
  intro fuel
  induction fuel with
  | zero => intro l row h; simp [findTagGo] at h
  | succ fuel ih =>
    intro l row h
    cases l with
    | nil => simp [findTagGo] at h
    | cons x rest =>
      simp only [findTagGo] at h
      rcases ho : matchOpenTag isSecond (x :: rest) with _ | afterOpen <;>
        simp only [ho] at h
      · exact fun c hc => List.mem_cons_of_mem _ (ih rest row h c hc)
      · rcases hcs : closeTagSplit isSecond afterOpen with
          _ | ⟨cont, after⟩ <;> simp only [hcs] at h
        · exact fun c hc => List.mem_cons_of_mem _ (ih rest row h c hc)
        · rcases List.mem_cons.mp h with rfl | h
          · intro c hc
            have h1 := (closeTagSplit_subset isSecond afterOpen row after
              hcs).1 c hc
            exact matchOpenTag_subset isSecond _ afterOpen ho c h1
          · intro c hc
            have h1 := ih after row h c hc
            have h2 := (closeTagSplit_subset isSecond afterOpen cont after
              hcs).2 c h1
            exact matchOpenTag_subset isSecond _ afterOpen ho c h2

theorem stripTagsGo_subset :
    ∀ (fuel : Nat) (l : List Char), ∀ c ∈ stripTagsGo fuel l, c ∈ l := by
  intro fuel
  induction fuel with
  | zero => intro l c hc; simp [stripTagsGo] at hc
  | succ fuel ih =>
    intro l c hc
    cases l with
    | nil => simp [stripTagsGo] at hc
    | cons x rest =>
      simp only [stripTagsGo] at hc
      by_cases hx : x = '<'
      · rw [if_pos hx] at hc
        by_cases hh : rest.headD '>' = '>'
        · rw [if_pos hh] at hc
          rcases List.mem_cons.mp hc with rfl | hc
          · exact List.mem_cons_self _ _
          · exact List.mem_cons_of_mem _ (ih rest c hc)
        · rw [if_neg hh] at hc
          by_cases hd : ((rest.dropWhile (fun d => !(d = '>'))).headD ' '
              = '>')
          · rw [if_pos hd] at hc
            exact List.mem_cons_of_mem _
              (dropWhileTail_subset _ rest c (ih _ c hc))
          · rw [if_neg hd] at hc
            rcases List.mem_cons.mp hc with rfl | hc
            · exact List.mem_cons_self _ _
            · exact List.mem_cons_of_mem _ (ih rest c hc)
      · rw [if_neg hx] at hc
        rcases List.mem_cons.mp hc with rfl | hc
        · exact List.mem_cons_self _ _
        · exact List.mem_cons_of_mem _ (ih rest c hc)

theorem pyStrip_subset (l : List Char) : ∀ c ∈ pyStrip l, c ∈ l := by
  intro c hc
  unfold pyStrip at hc
  rw [List.mem_reverse] at hc
  have h1 := List.dropWhile_subset pyWs hc
  rw [List.mem_reverse] at h1
  exact List.dropWhile_subset pyWs h1

theorem subWsRunsGo_mem :
    ∀ (fuel : Nat) (l : List Char), ∀ c ∈ subWsRunsGo fuel l,
      c = ' ' ∨ (c ∈ l ∧ pyWs c = false) := by
  intro fuel
  induction fuel with
  | zero => intro l c hc; simp [subWsRunsGo] at hc
  | succ fuel ih =>
    intro l c hc
    cases l with
    | nil => simp [subWsRunsGo] at hc
    | cons x rest =>
      simp only [subWsRunsGo] at hc
      by_cases hx : pyWs x = true
      · rw [if_pos hx] at hc
        rcases List.mem_cons.mp hc with rfl | hc
        · exact Or.inl rfl
        · rcases ih _ c hc with h | ⟨h1, h2⟩
          · exact Or.inl h
          · exact Or.inr ⟨List.mem_cons_of_mem _
              (List.dropWhile_subset pyWs h1), h2⟩
      · rw [if_neg hx] at hc
        rcases List.mem_cons.mp hc with rfl | hc
        · exact Or.inr ⟨List.mem_cons_self _ _, by
            exact Bool.not_eq_true _ ▸ hx⟩
        · rcases ih rest c hc with h | ⟨h1, h2⟩
          · exact Or.inl h
          · exact Or.inr ⟨List.mem_cons_of_mem _ h1, h2⟩

theorem newline_not_mem_collapseWs (l : List Char) :
    '\n' ∉ collapseWs l := by
  intro h
  unfold collapseWs subWsRuns at h
  rcases subWsRunsGo_mem _ _ '\n' h with h1 | ⟨_, h2⟩
  · exact absurd h1 (by decide)
  · exact absurd h2 (by decide)

theorem mem_joinSep (sep : List Char) :
    ∀ (parts : List (List Char)) (c : Char), c ∈ joinSep sep parts →
      c ∈ sep ∨ ∃ p ∈ parts, c ∈ p := by
  intro parts
  induction parts with
  | nil => intro c hc; simp [joinSep] at hc
  | cons x rest ih =>
    intro c hc
    cases rest with
    | nil =>
      simp only [joinSep] at hc
      exact Or.inr ⟨x, by simp, hc⟩
    | cons y rest' =>
      simp only [joinSep] at hc
      rcases List.mem_append.mp hc with hc | hc
      · rcases List.mem_append.mp hc with hc | hc
        · exact Or.inr ⟨x, by simp, hc⟩
        · exact Or.inl hc
      · rcases ih c hc with h | ⟨p, hp, hcp⟩
        · exact Or.inl h
        · exact Or.inr ⟨p, List.mem_cons_of_mem _ hp, hcp⟩

theorem newline_not_mem_mkMdLine (cells : List (List Char))
    (hcells : ∀ cell ∈ cells, '\n' ∉ cell) : '\n' ∉ mkMdLine cells := by
  intro h
  unfold mkMdLine at h
  rcases List.mem_append.mp h with h | h
  · rcases List.mem_append.mp h with h | h
    · exact absurd h (by decide)
    · rcases mem_joinSep _ _ _ h with h1 | ⟨p, hp, hcp⟩
      · exact absurd h1 (by decide)
      · exact hcells p hp hcp
  · exact absurd h (by decide)

theorem newline_not_mem_cellsOfRow (row : List Char)
    (hrow : '\n' ∉ row) : ∀ cell ∈ cellsOfRow row, '\n' ∉ cell := by
  intro cell hcell hnl
  unfold cellsOfRow at hcell
  obtain ⟨raw, hraw, rfl⟩ := List.mem_map.mp hcell
  have h1 := pyStrip_subset _ _ hnl
  have h2 := stripTagsGo_subset _ _ '\n' h1
  exact hrow (findTagGo_mem_subset isCellSecond _ _ raw hraw '\n' h2)

/-- Claim C3, counterexample: with no `<tr>` in the input the source
returns the *whitespace-normalized* input (stripped, runs collapsed),
not the input unchanged: on `"a  b"` it returns `"a b"`. -/
theorem html_table_to_markdown_claim_cex :
    html_table_to_markdown "a  b" = "a b" ∧
    ("a b" : String) ≠ "a  b" := by
  constructor
  · rfl
  · decide

/-- Claim C3 (amended): when `html_table_to_markdown` finds `N ≥ 1`
rows, its output is exactly the newline-join of `N + 1` newline-free
lines — one pipe-delimited line per row in source order with the single
`---` header-separator line (one `---` cell per cell of the first row)
inserted immediately after the first row's line; when no rows are
found, the output is the whitespace-normalized input (leading/trailing
whitespace stripped, internal whitespace runs collapsed to single
spaces) rather than the input unchanged. -/
theorem html_table_to_markdown_shape (s : String) :
    (findTrRows (collapseWs s.data) = [] →
      html_table_to_markdown s = String.mk (collapseWs s.data)) ∧
    (∀ r0 rest, findTrRows (collapseWs s.data) = r0 :: rest →
      (html_table_to_markdown s).data =
        joinSep ['\n'] (mdLines (r0 :: rest)) ∧
      (mdLines (r0 :: rest)).length = (r0 :: rest).length + 1 ∧
      mdLines (r0 :: rest) =
        mkMdLine (cellsOfRow r0) ::
          mkMdLine (List.replicate (cellsOfRow r0).length "---".data) ::
          rest.map (fun r => mkMdLine (cellsOfRow r)) ∧
      (∀ line ∈ mdLines (r0 :: rest), '\n' ∉ line)) := by
  constructor
  · intro h
    unfold html_table_to_markdown
    rw [h]
    rfl
  · intro r0 rest h
    have hrows : ∀ r ∈ (r0 :: rest), '\n' ∉ r := by
      intro r hr hnl
      rw [← h] at hr
      exact newline_not_mem_collapseWs s.data
        (findTagGo_mem_subset isTrSecond _ _ r hr '\n' hnl)
    refine ⟨?_, ?_, rfl, ?_⟩
    · unfold html_table_to_markdown
      rw [h]
      rfl
    · simp [mdLines]
    · intro line hline
      rcases List.mem_cons.mp hline with rfl | hline
      · exact newline_not_mem_mkMdLine _
          (newline_not_mem_cellsOfRow r0 (hrows r0 (by simp)))
      · rcases List.mem_cons.mp hline with rfl | hline
        · refine newline_not_mem_mkMdLine _ ?_
          intro cell hcell
          rw [List.eq_of_mem_replicate hcell]
          decide
        · obtain ⟨r, hr, rfl⟩ := List.mem_map.mp hline
          exact newline_not_mem_mkMdLine _
            (newline_not_mem_cellsOfRow r
              (hrows r (List.mem_cons_of_mem _ hr)))

/-- Claim C3, witness: a two-row table yields exactly three newline-free
lines with the separator after the first row's line. -/
theorem html_table_to_markdown_shape_witness :
    (html_table_to_markdown "<tr><td>a</td></tr><tr><td>b</td></tr>").data
      = joinSep ['\n'] (mdLines ["<td>a</td>".data, "<td>b</td>".data]) ∧
    (mdLines ["<td>a</td>".data, "<td>b</td>".data]).length =
      (["<td>a</td>".data, "<td>b</td>".data] : List (List Char)).length
        + 1 ∧
    mdLines ["<td>a</td>".data, "<td>b</td>".data] =
      mkMdLine (cellsOfRow "<td>a</td>".data) ::
        mkMdLine (List.replicate (cellsOfRow "<td>a</td>".data).length
          "---".data) ::
        ["<td>b</td>".data].map (fun r => mkMdLine (cellsOfRow r)) ∧
    (∀ line ∈ mdLines ["<td>a</td>".data, "<td>b</td>".data],
      '\n' ∉ line) ∧
    html_table_to_markdown "no rows  here" =
      String.mk (collapseWs "no rows  here".data) :=
  ⟨((html_table_to_markdown_shape
      "<tr><td>a</td></tr><tr><td>b</td></tr>").2
      "<td>a</td>".data ["<td>b</td>".data] (by decide)).1,
   ((html_table_to_markdown_shape
      "<tr><td>a</td></tr><tr><td>b</td></tr>").2
      "<td>a</td>".data ["<td>b</td>".data] (by decide)).2.1,
   ((html_table_to_markdown_shape
      "<tr><td>a</td></tr><tr><td>b</td></tr>").2
      "<td>a</td>".data ["<td>b</td>".data] (by decide)).2.2.1,
   ((html_table_to_markdown_shape
      "<tr><td>a</td></tr><tr><td>b</td></tr>").2
      "<td>a</td>".data ["<td>b</td>".data] (by decide)).2.2.2,
   (html_table_to_markdown_shape "no rows  here").1 (by decide)⟩

end HybridRag
